import Mathlib

/-!
Verification development for the adaptive WebP quality-search core of
`webp-equiv` (`src/unnamed/part_000`, function `webpRecompress`, together
with `src/src/lib/encode-webp.mjs`).

The embedding below mirrors the JavaScript source.  External collaborators
(`trial`, `identify`, `convert`, `statAsync`, `encodeWebp` success/failure)
are supplied as oracle parameters; helpers that live in `lib/utils.mjs`
(not part of the provided sources) are modelled from the spec and marked
as such in their doc comments.

Numeric conventions: similarity scores and thresholds (JS floats) are
embedded as rationals, byte sizes as naturals, qualities as integers.
-/

namespace WebpEquiv

/-- A trials-table entry, from `src/unnamed/part_000` lines 128-136:
`trials[quality] = { score, size, attempts: 0 }` followed by
`trials[quality].attempts++`. -/
structure TrialRecord where
  score : ℚ
  size : ℕ
  attempts : ℕ
deriving Repr, DecidableEq

/-- The trials memoization table: a JS object keyed by quality, embedded as
an association list (keys unique for tables built by the loop). -/
abbrev Trials := List (ℤ × TrialRecord)

/-- Key lookup in the trials table (`trials[quality]`). -/
def lookupRec : Trials → ℤ → Option TrialRecord
  | [], _ => none
  | (k, r) :: rest, q => if k = q then some r else lookupRec rest q

/-- The JS `quality in trials` membership test. -/
def containsKey (t : Trials) (q : ℤ) : Bool :=
  (lookupRec t q).isSome

/-- Entry creation (`trials[quality] = { score, size, attempts: 0 }`). -/
def addRec (t : Trials) (q : ℤ) (score : ℚ) (size : ℕ) : Trials :=
  t ++ [(q, ⟨score, size, 0⟩)]

/-- The `trials[quality].attempts++` update. -/
def bumpAttempts : Trials → ℤ → Trials
  | [], _ => []
  | (k, r) :: rest, q =>
    if k = q then (k, ⟨r.score, r.size, r.attempts + 1⟩) :: rest
    else (k, r) :: bumpAttempts rest q

/-- Attempts counter at a quality (0 when the entry is absent). -/
def attemptsAt (t : Trials) (q : ℤ) : ℕ :=
  match lookupRec t q with
  | some r => r.attempts
  | none => 0

/-- Modelled from the spec: `clampQuality` lives in `lib/utils.mjs`, which is
not among the provided sources.  Spec 4.1: maps any value to the closed
integer range [0,100]; values below 0 floor to 0, above 100 ceil to 100. -/
def clampQuality (q : ℤ) : ℤ :=
  min 100 (max 0 q)

/-- Modelled from the spec: `getQualityInterval` lives in `lib/utils.mjs`,
which is not among the provided sources.  Spec 4.1: a strictly positive step,
monotone in the gap `|score - threshold|` (here proportional to the gap
scaled by 100, the example shape the spec gives), with a floor of 1 and
bounded so a single step cannot jump past the whole [0,100] range. -/
def getQualityInterval (score threshold : ℚ) (_quality : ℤ) : ℤ :=
  max 1 (min 100 (round (|score - threshold| * 100)))

/-- Modelled from the spec: `roundTo` lives in `lib/utils.mjs`, which is not
among the provided sources.  Spec 4.3: the relaxed threshold is "rounded to a
fixed decimal precision"; the precision is fixed at two decimal places here. -/
def roundTo (x : ℚ) : ℚ :=
  (round (x * 100) : ℚ) / 100

/-- Scan for the entry with the smallest size (ties broken by lower quality)
among a list of trials-table entries. -/
def pickBest : List (ℤ × TrialRecord) → Option (ℤ × ℕ)
  | [] => none
  | (q, r) :: rest =>
    match pickBest rest with
    | none => some (q, r.size)
    | some (bq, bs) =>
      if r.size < bs ∨ (r.size = bs ∧ q < bq) then some (q, r.size) else some (bq, bs)

/-- Modelled from the spec: `getFinalQuality` lives in `lib/utils.mjs`, which
is not among the provided sources.  Spec 4.1: given the just-computed score
and the trial history, select among the entries whose recorded score is
acceptable (the only acceptance bound available to the function is the passed
score, which at its call site is at most the threshold) the one with the
smallest recorded size, ties broken by lower quality; returns that
(quality, size).  Nothing is specified when no entry qualifies, so the result
is an `Option`. -/
def getFinalQuality (score : ℚ) (trials : Trials) : Option (ℤ × ℕ) :=
  pickBest (trials.filter fun p => p.2.score ≤ score)

/-- A trial evaluator: the `trial(input, inputSize, files, quality, quiet,
trials)` collaborator with the per-call-constant arguments fixed, consuming
the candidate quality and the current trials table and returning `(score,
size)` on success, `none` on trial failure.  Modelled from the spec (6):
`runTrial(...) -> (score, size) | Error(TrialFailure)`. -/
abbrev Ev := ℤ → Trials → Option (ℚ × ℕ)

/-- The table after recording one trial at `q` that observed `(score, size)`:
create the entry with `attempts = 0` if absent (storing the observed score
and size), then increment `attempts` (lines 127-136). -/
def afterTrial (t : Trials) (q : ℤ) (score : ℚ) (size : ℕ) : Trials :=
  bumpAttempts (if containsKey t q then t else addRec t q score size) q

/-- Outcome of one body execution of the `do`-loop (lines 120-164). -/
inductive StepRes where
  | fail (quality : ℤ) (trials : Trials)
  | escape (score : ℚ) (size : ℕ) (quality : ℤ) (trials : Trials)
  | converge (score : ℚ) (size : ℕ) (quality : ℤ) (trials : Trials)
  | next (quality : ℤ) (trials : Trials)
deriving Repr, DecidableEq

/-- Whether a step outcome is the oscillation escape. -/
def isEscapeStep : StepRes → Bool
  | .escape _ _ _ _ => true
  | _ => false

/-- One body execution of the search loop, `src/unnamed/part_000` lines
120-164: run the trial, record the attempt, escape when `attempts > 3` after
nudging quality by -2 (size regression) or +2, otherwise walk the decision
ladder: size regression decreases quality by the interval (no clamp);
a passing score converges; otherwise quality increases by the interval and
is clamped. -/
def loopStep (ev : Ev) (threshold : ℚ) (inputSize : ℕ) (quality : ℤ)
    (trials : Trials) : StepRes :=
  match ev quality trials with
  | none => .fail quality trials
  | some (score, size) =>
    let t2 := afterTrial trials quality score size
    if 3 < attemptsAt t2 quality then
      .escape score size (if inputSize ≤ size then quality - 2 else quality + 2) t2
    else
      let interval := getQualityInterval score threshold quality
      if inputSize ≤ size then
        .next (quality - interval) t2
      else if score ≤ threshold then
        .converge score size quality t2
      else
        .next (clampQuality (quality + interval)) t2

/-- Result of the whole `do ... while` loop.  The `while` condition
`score > threshold || size >= inputSize` is true whenever it is evaluated
(both `continue` paths re-establish it), so the loop exits only through the
trial-failure `return`, the escape `break` or the convergence `break`;
`fuelOut` is the embedding artifact for runs longer than the supplied fuel. -/
inductive LoopOut where
  | trialFail (quality : ℤ) (trials : Trials)
  | finished (score : ℚ) (size : ℕ) (quality : ℤ) (trials : Trials)
  | fuelOut (quality : ℤ) (trials : Trials)
deriving Repr, DecidableEq

/-- The trials table carried by a loop result. -/
def LoopOut.table : LoopOut → Trials
  | .trialFail _ t => t
  | .finished _ _ _ t => t
  | .fuelOut _ t => t

/-- The search-controller loop (lines 120-165), fuel-indexed.  The second
component is the list of qualities probed, in order. -/
def searchLoop (ev : Ev) (threshold : ℚ) (inputSize : ℕ) :
    ℕ → ℤ → Trials → LoopOut × List ℤ
  | 0, q, t => (.fuelOut q t, [])
  | fuel + 1, q, t =>
    match loopStep ev threshold inputSize q t with
    | .fail q1 t1 => (.trialFail q1 t1, [q])
    | .escape score size q1 t1 => (.finished score size q1 t1, [q])
    | .converge score size q1 t1 => (.finished score size q1 t1, [q])
    | .next q1 t1 =>
      let (out, log) := searchLoop ev threshold inputSize fuel q1 t1
      (out, q :: log)

/-- Observable collaborator events of one top-level call, in order. -/
inductive Event where
  | statIn
  | encode (args : List String)
  | statOut
  | identifyEv
  | convertEv
  | attempt (threshold : ℚ)
  | probe (quality : ℤ)
  | confirm (quality : ℤ)
deriving Repr, DecidableEq

/-- Overall result of `webpRecompress`.  The JS function returns a
`[Bool, message]` pair; the embedding keeps the data the message interpolates
(final quality, size, before/after sizes) and, as state instrumentation, the
trials table held when the call returns. -/
inductive Result where
  | failure (msg : String)
  | success (quality : ℤ) (size : ℕ) (trials : Trials)
  | successPng (inputSize outputSize : ℕ)
  | outOfFuel
deriving Repr, DecidableEq

/-- The `cwebp` invocation built by `src/src/lib/encode-webp.mjs` lines 9-16:
`execFileAsync(cwebp, ["-q", quality, "-mt", inputFile, "-o", outputFile])`. -/
def encodeWebpArgs (inputFile outputFile : String) (quality : ℤ) : List String :=
  ["-q", toString quality, "-mt", inputFile, "-o", outputFile]

/-- The value bound by `[state, data] = await to(statAsync(...))`.  Modelled
from the spec for the `to` helper of `lib/utils.mjs` (not among the provided
sources): on success `data` is the stat object carrying `.size`; on failure
`data` is the error value (the code interpolates it into failure messages),
a JS object with no `size` property. -/
inductive StatData where
  | obj (size : ℕ)
  | err
deriving Repr, DecidableEq

/-- Reading `data.size`: on the stat object it is the byte size; on the error
value the property is absent (JS `undefined`), hence `none`. -/
def sizeField : StatData → Option ℕ
  | .obj n => some n
  | .err => none

/-- The PNG lossless path, `src/unnamed/part_000` lines 18-52: stat the
input, encode once at quality 100, stat the output — reading `data.size`
before checking the stat state, exactly as line 45 does — and report
before/after sizes.  `statInput`/`statOutput` are the stat oracles (`none`
models a rejected `statAsync`), `encodeOk` the encoder oracle. -/
def pngPath (statInput : Option ℕ) (encodeOk : Bool) (statOutput : Option ℕ)
    (input outputWebp : String) : Result × List Event :=
  match statInput with
  | none => (.failure "Couldn\x27t get the size of PNG input.", [.statIn])
  | some inputSize =>
    let args := encodeWebpArgs input outputWebp 100
    if encodeOk = false then
      (.failure "Couldn\x27t encode lossless WebP from PNG input.", [.statIn, .encode args])
    else
      let state := statOutput.isSome
      let data : StatData := match statOutput with
        | some n => .obj n
        | none => .err
      let outputSize : Option ℕ := sizeField data
      if state = false then
        (.failure "Couldn\x27t get the size of PNG input.", [.statIn, .encode args, .statOut])
      else
        (.successPng inputSize (outputSize.getD 0), [.statIn, .encode args, .statOut])

/-- Lines 59-61: `if (start > 100 || start < 0) start = clampQuality(start)`. -/
def condClampStart (start : ℤ) : ℤ :=
  if 100 < start ∨ start < 0 then clampQuality start else start

/-- Lines 69 and 91-106: the loop's starting quality is the (clamped) start
on a relaxation re-entry (`prior`), and otherwise the `identify` guess when
it succeeds, falling back to the clamped start. -/
def initialQuality (prior : Bool) (identifyQ : Option ℤ) (start : ℤ) : ℤ :=
  if prior then start
  else
    match identifyQ with
    | some g => g
    | none => start

/-- The final-candidate block, lines 167-173: pick the best recorded
candidate, re-run one confirming trial at that quality with a fresh empty
trials object (`trial(input, inputSize, files, quality, true, {})`, result
discarded), and report success carrying the trials table. -/
def finalBlock (ev : Ev) (score : ℚ) (trials : Trials) : Result × List Event :=
  match getFinalQuality score trials with
  | some (qf, sf) =>
    let _ := ev qf []
    (.success qf sf trials, [.confirm qf])
  | none => (.failure "no qualifying candidate", [])

/-- The JPEG search driver, `src/unnamed/part_000` lines 54-177 (the PNG
branch is `pngPath`): clamp the start, validate the threshold, stat the
input (oracle assumed successful; `inputSize` is its result), guess the
JPEG quality unless `prior`, convert to the PNG reference, run the search
loop, and either hand off to the final block or recurse with the relaxed
threshold `roundTo(threshold * thresholdMultiplier)`, the last quality
reached, `prior = true` and the same trials table.  The first argument
of the recursion-depth fuel models the absent internal recursion bound. -/
def webpRecompress (ev : Ev) (inputSize : ℕ) (identifyQ : Option ℤ)
    (convertOk : Bool) (thresholdMultiplier : ℚ) (loopFuel : ℕ) :
    ℕ → ℚ → ℤ → Bool → Trials → Result × List Event
  | 0, _, _, _, _ => (.outOfFuel, [])
  | depth + 1, threshold, start, prior, trials =>
    let start1 := condClampStart start
    if 1 < threshold ∨ threshold < 0 then
      (.failure "Threshold must be between 0 and 1.", [])
    else
      let quality0 := initialQuality prior identifyQ start1
      let log1 : List Event := .statIn :: (if prior then [] else [.identifyEv])
      if convertOk = false then
        (.failure "Couldn\x27t create a PNG reference from the JPEG given.",
          log1 ++ [.convertEv])
      else
        let log2 := log1 ++ [.convertEv, .attempt threshold]
        match searchLoop ev threshold inputSize loopFuel quality0 trials with
        | (.trialFail _ _, plog) =>
          (.failure "Couldn\x27t run image trial.", log2 ++ plog.map Event.probe)
        | (.fuelOut _ _, plog) =>
          (.outOfFuel, log2 ++ plog.map Event.probe)
        | (.finished score size quality1 trials1, plog) =>
          let log3 := log2 ++ plog.map Event.probe
          if score ≤ threshold ∧ size < inputSize then
            let (r, flog) := finalBlock ev score trials1
            (r, log3 ++ flog)
          else
            let (r, rlog) := webpRecompress ev inputSize identifyQ convertOk
              thresholdMultiplier loopFuel depth
              (roundTo (threshold * thresholdMultiplier)) quality1 true trials1
            (r, log3 ++ rlog)

/-- Input classification: the `pngRegex` / `jpegRegex` tests on the input
path (the regexes live in `lib/utils.mjs`; only their boolean outcome
matters to the control flow). -/
inductive InputKind where
  | png
  | jpeg
  | other
deriving Repr, DecidableEq

/-- The function entry, lines 18-56: the PNG branch first, then the
input-format rejection, then the JPEG search driver starting with
`prior = false` and an empty trials table. -/
def webpRecompressTop (kind : InputKind) (pngStatIn : Option ℕ)
    (pngEncodeOk : Bool) (pngStatOut : Option ℕ) (ev : Ev) (inputSize : ℕ)
    (identifyQ : Option ℤ) (convertOk : Bool) (thresholdMultiplier : ℚ)
    (loopFuel depth : ℕ) (threshold : ℚ) (start : ℤ) : Result × List Event :=
  match kind with
  | .png => pngPath pngStatIn pngEncodeOk pngStatOut "img.png" "img.webp"
  | .other => (.failure "Input must be a JPEG or PNG image.", [])
  | .jpeg => webpRecompress ev inputSize identifyQ convertOk thresholdMultiplier
      loopFuel depth threshold start false []

/-- The thresholds of the relaxation attempts, read off the event log. -/
def attemptThresholds (log : List Event) : List ℚ :=
  log.filterMap fun e =>
    match e with
    | .attempt t => some t
    | _ => none

/-! ### Helper lemmas about the trials table -/

theorem lookupRec_mem {t : Trials} {q : ℤ} {r : TrialRecord}
    (h : lookupRec t q = some r) : (q, r) ∈ t := by
  induction t with
  | nil => simp [lookupRec] at h
  | cons p rest ih =>
    obtain ⟨k, v⟩ := p
    simp only [lookupRec] at h
    by_cases hk : k = q
    · rw [if_pos hk] at h
      cases h
      subst hk
      exact List.mem_cons_self _ _
    · rw [if_neg hk] at h
      exact List.mem_cons_of_mem _ (ih h)

theorem mem_bumpAttempts {t : Trials} {q k : ℤ} {r : TrialRecord}
    (h : (k, r) ∈ bumpAttempts t q) :
    ∃ r0, (k, r0) ∈ t ∧ r0.score = r.score ∧ r0.size = r.size := by
  induction t with
  | nil => simp [bumpAttempts] at h
  | cons p rest ih =>
    obtain ⟨k0, r0⟩ := p
    simp only [bumpAttempts] at h
    by_cases hk : k0 = q
    · rw [if_pos hk] at h
      rcases List.mem_cons.mp h with h1 | h1
      · cases h1
        exact ⟨r0, List.mem_cons_self _ _, rfl, rfl⟩
      · exact ⟨r, List.mem_cons_of_mem _ h1, rfl, rfl⟩
    · rw [if_neg hk] at h
      rcases List.mem_cons.mp h with h1 | h1
      · cases h1
        exact ⟨r, List.mem_cons_self _ _, rfl, rfl⟩
      · obtain ⟨r1, hm, hs, hz⟩ := ih h1
        exact ⟨r1, List.mem_cons_of_mem _ hm, hs, hz⟩

theorem mem_addRec {t : Trials} {q k : ℤ} {s : ℚ} {z : ℕ} {r : TrialRecord}
    (h : (k, r) ∈ addRec t q s z) :
    (k, r) ∈ t ∨ (k = q ∧ r = ⟨s, z, 0⟩) := by
  rcases List.mem_append.mp h with h1 | h1
  · exact Or.inl h1
  · rcases List.mem_singleton.mp h1 with h2
    exact Or.inr ⟨congrArg Prod.fst h2, congrArg Prod.snd h2⟩

theorem lookupRec_bumpAttempts (t : Trials) (q k : ℤ) :
    lookupRec (bumpAttempts t q) k =
      if k = q then
        (lookupRec t q).map fun r => ⟨r.score, r.size, r.attempts + 1⟩
      else lookupRec t k := by
  induction t with
  | nil => simp [bumpAttempts, lookupRec]
  | cons p rest ih =>
    obtain ⟨k0, r0⟩ := p
    by_cases h0 : k0 = q
    · subst h0
      by_cases hk : k = k0
      · subst hk
        simp [bumpAttempts, lookupRec]
      · have hk2 : ¬ k0 = k := fun h => hk h.symm
        simp [bumpAttempts, lookupRec, hk, hk2]
    · by_cases hk : k0 = k
      · subst hk
        simp [bumpAttempts, lookupRec, h0]
      · simp [bumpAttempts, lookupRec, h0, hk, ih]

theorem lookupRec_append (t1 t2 : Trials) (k : ℤ) :
    lookupRec (t1 ++ t2) k =
      match lookupRec t1 k with
      | some r => some r
      | none => lookupRec t2 k := by
  induction t1 with
  | nil => simp [lookupRec]
  | cons p rest ih =>
    obtain ⟨k0, r0⟩ := p
    show lookupRec ((k0, r0) :: (rest ++ t2)) k = _
    rw [lookupRec, lookupRec]
    by_cases hk : k0 = k
    · rw [if_pos hk, if_pos hk]
    · rw [if_neg hk, if_neg hk, ih]

theorem lookupRec_addRec_ne {q k : ℤ} (t : Trials) (s : ℚ) (z : ℕ)
    (h : k ≠ q) : lookupRec (addRec t q s z) k = lookupRec t k := by
  rw [addRec, lookupRec_append]
  cases hl : lookupRec t k with
  | some r => rfl
  | none =>
    rw [lookupRec, if_neg (fun hh : q = k => h hh.symm), lookupRec]

theorem lookupRec_addRec_self {q : ℤ} {t : Trials} (s : ℚ) (z : ℕ)
    (h : lookupRec t q = none) :
    lookupRec (addRec t q s z) q = some ⟨s, z, 0⟩ := by
  rw [addRec, lookupRec_append, h]
  simp [lookupRec]

theorem lookup_afterTrial_self (t : Trials) (q : ℤ) (s : ℚ) (z : ℕ) :
    lookupRec (afterTrial t q s z) q =
      some (match lookupRec t q with
            | some r => ⟨r.score, r.size, r.attempts + 1⟩
            | none => ⟨s, z, 1⟩) := by
  rw [afterTrial]
  cases hl : lookupRec t q with
  | some r =>
    have hc : containsKey t q = true := by simp [containsKey, hl]
    rw [if_pos hc, lookupRec_bumpAttempts, if_pos rfl, hl]
    rfl
  | none =>
    have hc : ¬ containsKey t q = true := by simp [containsKey, hl]
    rw [if_neg hc, lookupRec_bumpAttempts, if_pos rfl,
      lookupRec_addRec_self s z hl]
    rfl

theorem lookup_afterTrial_ne {k q : ℤ} (t : Trials) (s : ℚ) (z : ℕ)
    (h : k ≠ q) :
    lookupRec (afterTrial t q s z) k = lookupRec t k := by
  rw [afterTrial]
  by_cases hc : containsKey t q = true
  · rw [if_pos hc, lookupRec_bumpAttempts, if_neg h]
  · rw [if_neg hc, lookupRec_bumpAttempts, if_neg h, lookupRec_addRec_ne t s z h]

theorem attemptsAt_afterTrial_self (t : Trials) (q : ℤ) (s : ℚ) (z : ℕ) :
    attemptsAt (afterTrial t q s z) q = attemptsAt t q + 1 := by
  rw [attemptsAt, lookup_afterTrial_self, attemptsAt]
  cases lookupRec t q <;> rfl

theorem afterTrial_preserves {t : Trials} {k : ℤ} {r : TrialRecord}
    (q : ℤ) (s : ℚ) (z : ℕ) (h : lookupRec t k = some r) :
    ∃ r1, lookupRec (afterTrial t q s z) k = some r1 ∧
      r1.score = r.score ∧ r1.size = r.size ∧ r.attempts ≤ r1.attempts := by
  by_cases hk : k = q
  · subst hk
    rw [lookup_afterTrial_self, h]
    exact ⟨⟨r.score, r.size, r.attempts + 1⟩, rfl, rfl, rfl, Nat.le_succ _⟩
  · rw [lookup_afterTrial_ne t s z hk, h]
    exact ⟨r, rfl, rfl, rfl, le_refl _⟩

theorem mem_afterTrial {t : Trials} {q k : ℤ} {s : ℚ} {z : ℕ} {r : TrialRecord}
    (h : (k, r) ∈ afterTrial t q s z) :
    (∃ r0, (k, r0) ∈ t ∧ r0.score = r.score ∧ r0.size = r.size) ∨
      (k = q ∧ r.score = s ∧ r.size = z) := by
  rw [afterTrial] at h
  by_cases hc : containsKey t q = true
  · rw [if_pos hc] at h
    exact Or.inl (mem_bumpAttempts h)
  · rw [if_neg hc] at h
    obtain ⟨r0, hm, hs, hz⟩ := mem_bumpAttempts h
    rcases mem_addRec hm with h1 | ⟨h1, h2⟩
    · exact Or.inl ⟨r0, h1, hs, hz⟩
    · subst h2
      exact Or.inr ⟨h1, hs.symm, hz.symm⟩

theorem one_le_getQualityInterval (s th : ℚ) (q : ℤ) :
    1 ≤ getQualityInterval s th q :=
  le_max_left _ _

theorem clampQuality_le_100 (q : ℤ) : clampQuality q ≤ 100 :=
  min_le_left _ _

theorem clampQuality_nonneg (q : ℤ) : 0 ≤ clampQuality q :=
  le_min (by norm_num) (le_max_left _ _)

/-! ### Case analysis of one loop-body execution -/

theorem loopStep_cases (ev : Ev) (th : ℚ) (isz : ℕ) (q : ℤ) (t : Trials) :
    (ev q t = none ∧ loopStep ev th isz q t = .fail q t) ∨
    (∃ s z, ev q t = some (s, z) ∧ 3 < attemptsAt t q + 1 ∧
      loopStep ev th isz q t =
        .escape s z (if isz ≤ z then q - 2 else q + 2) (afterTrial t q s z)) ∨
    (∃ s z, ev q t = some (s, z) ∧ ¬ 3 < attemptsAt t q + 1 ∧ isz ≤ z ∧
      loopStep ev th isz q t =
        .next (q - getQualityInterval s th q) (afterTrial t q s z)) ∨
    (∃ s z, ev q t = some (s, z) ∧ ¬ 3 < attemptsAt t q + 1 ∧ ¬ isz ≤ z ∧
      s ≤ th ∧
      loopStep ev th isz q t = .converge s z q (afterTrial t q s z)) ∨
    (∃ s z, ev q t = some (s, z) ∧ ¬ 3 < attemptsAt t q + 1 ∧ ¬ isz ≤ z ∧
      ¬ s ≤ th ∧
      loopStep ev th isz q t =
        .next (clampQuality (q + getQualityInterval s th q)) (afterTrial t q s z)) := by
  cases hev : ev q t with
  | none =>
    left
    exact ⟨rfl, by rw [loopStep, hev]⟩
  | some p =>
    obtain ⟨s, z⟩ := p
    right
    have hstep : loopStep ev th isz q t =
        (if 3 < attemptsAt (afterTrial t q s z) q then
          StepRes.escape s z (if isz ≤ z then q - 2 else q + 2) (afterTrial t q s z)
        else if isz ≤ z then
          StepRes.next (q - getQualityInterval s th q) (afterTrial t q s z)
        else if s ≤ th then
          StepRes.converge s z q (afterTrial t q s z)
        else
          StepRes.next (clampQuality (q + getQualityInterval s th q)) (afterTrial t q s z)) := by
      rw [loopStep, hev]
    rw [attemptsAt_afterTrial_self] at hstep
    by_cases h3 : 3 < attemptsAt t q + 1
    · left
      exact ⟨s, z, rfl, h3, by rw [hstep, if_pos h3]⟩
    · right
      by_cases hz : isz ≤ z
      · left
        exact ⟨s, z, rfl, h3, hz, by rw [hstep, if_neg h3, if_pos hz]⟩
      · right
        by_cases hs : s ≤ th
        · left
          exact ⟨s, z, rfl, h3, hz, hs,
            by rw [hstep, if_neg h3, if_neg hz, if_pos hs]⟩
        · right
          exact ⟨s, z, rfl, h3, hz, hs,
            by rw [hstep, if_neg h3, if_neg hz, if_neg hs]⟩

/-! ### Lemmas about the final-candidate selection -/

theorem pickBest_none :
    ∀ {l : List (ℤ × TrialRecord)}, pickBest l = none → l = [] := by
  intro l h
  cases l with
  | nil => rfl
  | cons p rest =>
    obtain ⟨q0, r0⟩ := p
    rw [pickBest] at h
    cases hrest : pickBest rest with
    | none =>
      simp only [hrest] at h
      exact Option.noConfusion h
    | some b =>
      obtain ⟨bq, bs⟩ := b
      simp only [hrest] at h
      by_cases hcmp : r0.size < bs ∨ (r0.size = bs ∧ q0 < bq)
      · rw [if_pos hcmp] at h
        exact Option.noConfusion h
      · rw [if_neg hcmp] at h
        exact Option.noConfusion h

theorem pickBest_mem :
    ∀ {l : List (ℤ × TrialRecord)} {q : ℤ} {s : ℕ},
      pickBest l = some (q, s) → ∃ r, (q, r) ∈ l ∧ r.size = s := by
  intro l
  induction l with
  | nil => intro q s h; simp [pickBest] at h
  | cons p rest ih =>
    intro q s h
    obtain ⟨q0, r0⟩ := p
    rw [pickBest] at h
    cases hrest : pickBest rest with
    | none =>
      simp only [hrest] at h
      cases h
      exact ⟨r0, List.mem_cons_self _ _, rfl⟩
    | some b =>
      obtain ⟨bq, bs⟩ := b
      simp only [hrest] at h
      by_cases hcmp : r0.size < bs ∨ (r0.size = bs ∧ q0 < bq)
      · rw [if_pos hcmp] at h
        cases h
        exact ⟨r0, List.mem_cons_self _ _, rfl⟩
      · rw [if_neg hcmp] at h
        cases h
        obtain ⟨r1, hm, hsz⟩ := ih hrest
        exact ⟨r1, List.mem_cons_of_mem _ hm, hsz⟩

theorem pickBest_min :
    ∀ {l : List (ℤ × TrialRecord)} {q : ℤ} {s : ℕ},
      pickBest l = some (q, s) →
        ∀ k r, (k, r) ∈ l → s ≤ r.size := by
  intro l
  induction l with
  | nil => intro q s h; simp [pickBest] at h
  | cons p rest ih =>
    intro q s h k r hm
    obtain ⟨q0, r0⟩ := p
    rw [pickBest] at h
    cases hrest : pickBest rest with
    | none =>
      simp only [hrest] at h
      cases h
      rcases List.mem_cons.mp hm with h1 | h1
      · cases h1
        exact le_refl _
      · rw [pickBest_none hrest] at h1
        simp at h1
    | some b =>
      obtain ⟨bq, bs⟩ := b
      simp only [hrest] at h
      rcases List.mem_cons.mp hm with h1 | h1
      · cases h1
        by_cases hcmp : r.size < bs ∨ (r.size = bs ∧ k < bq)
        · rw [if_pos hcmp] at h
          cases h
          exact le_refl _
        · rw [if_neg hcmp] at h
          cases h
          push_neg at hcmp
          exact hcmp.1
      · by_cases hcmp : r0.size < bs ∨ (r0.size = bs ∧ q0 < bq)
        · rw [if_pos hcmp] at h
          cases h
          have hbs := ih hrest k r h1
          rcases hcmp with hlt | ⟨heq, _⟩
          · exact le_trans (le_of_lt hlt) hbs
          · exact le_trans (le_of_eq heq) hbs
        · rw [if_neg hcmp] at h
          cases h
          exact ih hrest k r h1

theorem getFinalQuality_spec {score : ℚ} {t : Trials} {qf : ℤ} {sf : ℕ}
    (h : getFinalQuality score t = some (qf, sf)) :
    (∃ r, (qf, r) ∈ t ∧ r.size = sf ∧ r.score ≤ score) ∧
      ∀ k r, (k, r) ∈ t → r.score ≤ score → sf ≤ r.size := by
  rw [getFinalQuality] at h
  constructor
  · obtain ⟨r, hm, hsz⟩ := pickBest_mem h
    have := List.mem_filter.mp hm
    exact ⟨r, this.1, hsz, by simpa using this.2⟩
  · intro k r hm hs
    exact pickBest_min h k r (List.mem_filter.mpr ⟨hm, by simpa using hs⟩)

/-! ### Consistency of the table under a quality-deterministic evaluator -/

/-- The trial collaborator depends only on the quality it probes, not on the
trials table passed along: the behaviour of the real encoder, which produces
the same artifact whenever the same quality is encoded. -/
def DetEv (ev : Ev) : Prop :=
  ∀ q t1 t2, ev q t1 = ev q t2

/-- Every table entry records exactly what the evaluator reports at its
quality. -/
def TableConsistent (ev : Ev) (t : Trials) : Prop :=
  ∀ k r, (k, r) ∈ t → ev k [] = some (r.score, r.size)

theorem tableConsistent_afterTrial {ev : Ev} {t : Trials} {q : ℤ} {s : ℚ}
    {z : ℕ} (hdet : DetEv ev) (hcons : TableConsistent ev t)
    (hev : ev q t = some (s, z)) :
    TableConsistent ev (afterTrial t q s z) := by
  intro k r hm
  rcases mem_afterTrial hm with ⟨r0, hm0, hs0, hz0⟩ | ⟨hk, hs0, hz0⟩
  · rw [← hs0, ← hz0]
    exact hcons k r0 hm0
  · subst hk
    rw [hs0, hz0, ← hev]
    exact hdet k [] t

theorem afterTrial_self_record {ev : Ev} {t : Trials} {q : ℤ} {s : ℚ} {z : ℕ}
    (hdet : DetEv ev) (hcons : TableConsistent ev t)
    (hev : ev q t = some (s, z)) :
    ∃ r, lookupRec (afterTrial t q s z) q = some r ∧
      r.score = s ∧ r.size = z := by
  rw [lookup_afterTrial_self]
  cases hl : lookupRec t q with
  | none => exact ⟨⟨s, z, 1⟩, rfl, rfl, rfl⟩
  | some r0 =>
    have h1 : ev q [] = some (r0.score, r0.size) :=
      hcons q r0 (lookupRec_mem hl)
    have h2 : ev q [] = some (s, z) := by rw [hdet q [] t, hev]
    rw [h1] at h2
    cases h2
    exact ⟨⟨r0.score, r0.size, r0.attempts + 1⟩, rfl, rfl, rfl⟩

theorem searchLoop_finished_consistent {ev : Ev} {th : ℚ} {isz : ℕ}
    (hdet : DetEv ev) :
    ∀ fuel (q0 : ℤ) (t0 : Trials), TableConsistent ev t0 →
      ∀ {score : ℚ} {size : ℕ} {q1 : ℤ} {t1 : Trials} {plog : List ℤ},
        searchLoop ev th isz fuel q0 t0 = (.finished score size q1 t1, plog) →
        TableConsistent ev t1 ∧
          ∃ qp r, lookupRec t1 qp = some r ∧ r.score = score ∧ r.size = size := by
  intro fuel
  induction fuel with
  | zero =>
    intro q0 t0 _ score size q1 t1 plog h
    rw [searchLoop] at h
    exact absurd (congrArg Prod.fst h) (by simp)
  | succ n ih =>
    intro q0 t0 hcons score size q1 t1 plog h
    rw [searchLoop] at h
    rcases loopStep_cases ev th isz q0 t0 with
      ⟨_, hstep⟩ | ⟨s, z, hev, _, hstep⟩ | ⟨s, z, hev, _, _, hstep⟩ |
      ⟨s, z, hev, _, _, _, hstep⟩ | ⟨s, z, hev, _, _, _, hstep⟩
    · rw [hstep] at h
      exact absurd (congrArg Prod.fst h) (by simp)
    · rw [hstep] at h
      have h1 := congrArg Prod.fst h
      simp only at h1
      cases h1
      refine ⟨tableConsistent_afterTrial hdet hcons hev, q0, ?_⟩
      obtain ⟨r, hl, hs, hz⟩ := afterTrial_self_record hdet hcons hev
      exact ⟨r, hl, hs, hz⟩
    · rw [hstep] at h
      have h2 : searchLoop ev th isz n (q0 - getQualityInterval s th q0)
          (afterTrial t0 q0 s z) = (.finished score size q1 t1,
            ((searchLoop ev th isz n (q0 - getQualityInterval s th q0)
              (afterTrial t0 q0 s z)).2)) := by
        have := congrArg Prod.fst h
        simp only at this
        rw [← this]
      exact ih _ _ (tableConsistent_afterTrial hdet hcons hev) h2
    · rw [hstep] at h
      have h1 := congrArg Prod.fst h
      simp only at h1
      cases h1
      refine ⟨tableConsistent_afterTrial hdet hcons hev, q0, ?_⟩
      obtain ⟨r, hl, hs, hz⟩ := afterTrial_self_record hdet hcons hev
      exact ⟨r, hl, hs, hz⟩
    · rw [hstep] at h
      have h2 : searchLoop ev th isz n
          (clampQuality (q0 + getQualityInterval s th q0))
          (afterTrial t0 q0 s z) = (.finished score size q1 t1,
            ((searchLoop ev th isz n
              (clampQuality (q0 + getQualityInterval s th q0))
              (afterTrial t0 q0 s z)).2)) := by
        have := congrArg Prod.fst h
        simp only at this
        rw [← this]
      exact ih _ _ (tableConsistent_afterTrial hdet hcons hev) h2

/-! ### Concrete trial evaluators used as test inputs -/

/-- Evaluator whose second visit to quality 50 observes a different
(score, size) than the first (it reacts to the presence of the entry,
as the real `trial` may: it receives the trials table as an argument). -/
def evC2 : Ev := fun q t =>
  if q = 50 then (if containsKey t 50 then some (1/20, 40) else some (1/5, 50))
  else if q = 60 then some (1/5, 200)
  else none

/-- Evaluator that always reports a size at least the input size, driving
the loop through the (unclamped) decrease branch. -/
def evC3 : Ev := fun _ _ => some (1/20, 200)

/-- Evaluator producing a convergent run whose best recorded passing entry
has a size larger than the input, and which fails when probed at quality 50
with the fresh empty table the confirming trial passes. -/
def evA : Ev := fun q t =>
  if q = 60 then some (1/5, 210)
  else if q = 50 then (if containsKey t 60 then some (1/100, 200) else none)
  else if q = 41 then (if containsKey t 41 then some (1/20, 90) else some (1/5, 80))
  else if q = 51 then some (1/5, 150)
  else none

/-- Constant evaluator: score never passes a tiny threshold, size always
passes, so the loop parks at quality 100 and escapes. -/
def ev7 : Ev := fun _ _ => some (1/100, 50)

/-- Quality-deterministic evaluator converging immediately at quality 80. -/
def ev6w : Ev := fun q _ => if q = 80 then some (1/100, 600) else none

/-- Constant evaluator for exercising the oscillation escape. -/
def ev5w : Ev := fun _ _ => some (1/2, 200)

/-- A table whose quality-10 entry has already been tried three times. -/
def t10 : Trials := [((10 : ℤ), (⟨1/2, 200, 3⟩ : TrialRecord))]

/-! ### Claims -/

/-- Claim C1: on the PNG path exactly one encode is attempted, at quality
100, with no quality search (the event logs show a single `encode` event and
no `probe`/`confirm` events); a failed input-size probe or a failed encode
returns a failure immediately.  However, the single `cwebp` invocation
carries no `-lossless` flag — it is a lossy encode at quality 100 — even
though the code comments and messages call it lossless. -/
theorem c1_png_single_encode_not_lossless :
    pngPath (some 1000) true (some 500) "img.png" "img.webp" =
      (.successPng 1000 500,
        [.statIn, .encode (encodeWebpArgs "img.png" "img.webp" 100), .statOut]) ∧
    pngPath none true (some 500) "img.png" "img.webp" =
      (.failure "Couldn\x27t get the size of PNG input.", [.statIn]) ∧
    pngPath (some 1000) false (some 500) "img.png" "img.webp" =
      (.failure "Couldn\x27t encode lossless WebP from PNG input.",
        [.statIn, .encode (encodeWebpArgs "img.png" "img.webp" 100)]) ∧
    (encodeWebpArgs "img.png" "img.webp" 100).contains "-lossless" = false := by
  refine ⟨rfl, rfl, rfl, by decide⟩

/-- Claim C10 counterexample: when the output-size probe fails on the PNG
path, the tagged `[false, ...]` failure result IS returned (the claim calls
that return unreachable). -/
theorem c10_counterexample :
    pngPath (some 1000) true none "img.png" "img.webp" =
      (.failure "Couldn\x27t get the size of PNG input.",
        [.statIn, .encode (encodeWebpArgs "img.png" "img.webp" 100), .statOut]) := by
  rfl

/-- Claim C10 amended: line 45 does read `data.size` before checking the
failure flag, but the failure payload of the stat probe is the error value,
on which the `.size` read yields `undefined` (`none`) instead of aborting,
so the tagged failure return for the probe is reached whenever the probe
fails. -/
theorem c10_amended_failure_reachable :
    ∀ (n : ℕ) (input output : String),
      sizeField .err = none ∧
      pngPath (some n) true none input output =
        (.failure "Couldn\x27t get the size of PNG input.",
          [.statIn, .encode (encodeWebpArgs input output 100), .statOut]) := by
  intro n input output
  exact ⟨rfl, rfl⟩

/-- Claim C4 counterexample: a PNG input with threshold 2 (outside [0,1]) is
not rejected with a threshold failure; the lossless path runs (an encode
event occurs) and reports success. -/
theorem c4_counterexample :
    webpRecompressTop .png (some 1000) true (some 500) (fun _ _ => none) 0
        none true (11/10) 0 1 2 50 =
      (.successPng 1000 500,
        [.statIn, .encode (encodeWebpArgs "img.png" "img.webp" 100), .statOut]) := by
  rfl

/-- Claim C4 amended: on the JPEG path an out-of-range threshold is rejected
before any collaborator work (the event log is empty); the PNG path never
validates the threshold — its behaviour is identical for any two threshold
values. -/
theorem c4_amended_jpeg_validates_png_skips :
    (∀ (ev : Ev) (isz : ℕ) (idQ : Option ℤ) (cok : Bool) (mult th : ℚ)
        (lf d : ℕ) (st : ℤ) (prior : Bool) (tr : Trials),
      (1 < th ∨ th < 0) →
        webpRecompress ev isz idQ cok mult lf (d + 1) th st prior tr =
          (.failure "Threshold must be between 0 and 1.", [])) ∧
    (∀ (kpi : Option ℕ) (ke : Bool) (kpo : Option ℕ) (ev : Ev) (isz : ℕ)
        (idQ : Option ℤ) (cok : Bool) (mult : ℚ) (lf d : ℕ) (th th2 : ℚ)
        (st : ℤ),
      webpRecompressTop .png kpi ke kpo ev isz idQ cok mult lf d th st =
        webpRecompressTop .png kpi ke kpo ev isz idQ cok mult lf d th2 st) := by
  constructor
  · intro ev isz idQ cok mult th lf d st prior tr hth
    rw [webpRecompress]
    simp only [if_pos hth]
  · intro kpi ke kpo ev isz idQ cok mult lf d th th2 st
    rfl

/-- Claim C4 amended, witness: instantiating the JPEG half at threshold 2. -/
theorem c4_amended_witness :
    webpRecompress (fun _ _ => none) 100 none true (11/10) 5 2 2 50 false [] =
      (.failure "Threshold must be between 0 and 1.", []) :=
  c4_amended_jpeg_validates_png_skips.1 (fun _ _ => none) 100 none true
    (11/10) 2 5 1 50 false [] (Or.inl (by norm_num))

/-- Claim C5: the oscillation escape fires on exactly the fourth trial at a
quality.  If the trials entry at the current quality already records 3
attempts, the next trial at it escapes: the loop ends at once (a single probe
in the log), returning the current score and size with the quality nudged by
-2 when `size >= inputSize` and by +2 otherwise; with fewer than 3 recorded
attempts, the loop body never escapes. -/
theorem c5_oscillation_escape (ev : Ev) (th : ℚ) (isz : ℕ) (fuel : ℕ)
    (q : ℤ) (t : Trials) (score : ℚ) (size : ℕ)
    (hev : ev q t = some (score, size)) :
    (3 ≤ attemptsAt t q →
      searchLoop ev th isz (fuel + 1) q t =
        (.finished score size (if isz ≤ size then q - 2 else q + 2)
          (bumpAttempts t q), [q])) ∧
    (attemptsAt t q < 3 → isEscapeStep (loopStep ev th isz q t) = false) := by
  constructor
  · intro h3
    have hcont : containsKey t q = true := by
      cases hl : lookupRec t q with
      | none =>
        rw [attemptsAt, hl] at h3
        exact absurd h3 (by norm_num)
      | some r => simp [containsKey, hl]
    have hafter : afterTrial t q score size = bumpAttempts t q := by
      rw [afterTrial, if_pos hcont]
    have hstep : loopStep ev th isz q t =
        .escape score size (if isz ≤ size then q - 2 else q + 2)
          (afterTrial t q score size) := by
      rcases loopStep_cases ev th isz q t with
        ⟨he, _⟩ | ⟨s, z, he, _, hs⟩ | ⟨s, z, he, hn, _, _⟩ |
        ⟨s, z, he, hn, _, _, _⟩ | ⟨s, z, he, hn, _, _, _⟩
      · rw [hev] at he
        exact Option.noConfusion he
      · rw [hev] at he
        cases he
        exact hs
      · rw [hev] at he
        cases he
        omega
      · rw [hev] at he
        cases he
        omega
      · rw [hev] at he
        cases he
        omega
    rw [searchLoop, hstep, hafter]
  · intro h3
    rcases loopStep_cases ev th isz q t with
      ⟨_, hs⟩ | ⟨s, z, _, hgt, _⟩ | ⟨s, z, _, _, _, hs⟩ |
      ⟨s, z, _, _, _, _, hs⟩ | ⟨s, z, _, _, _, _, hs⟩
    · rw [hs]
      rfl
    · omega
    · rw [hs]
      rfl
    · rw [hs]
      rfl
    · rw [hs]
      rfl

/-- Claim C5, witness: an entry with 3 recorded attempts at quality 10, a
constant evaluator reporting (1/2, 200) with input size 100: the fourth trial
escapes with quality nudged down to 8 and the loop ends. -/
theorem c5_witness :
    searchLoop ev5w (1/10) 100 1 10 t10 =
      (.finished (1/2) 200 8 (bumpAttempts t10 10), [10]) :=
  (c5_oscillation_escape ev5w (1/10) 100 0 10 t10 (1/2) 200 rfl).1 (by decide)

/-- Claim C2 counterexample: running the loop with `evC2` (input size 100,
threshold 1/10, start 50) probes quality 50 twice; the second trial at 50
observes (1/20, 40) and converges, yet the stored entry for 50 still holds
the FIRST observation (1/5, 50) — not the most recent one, which the claim
asserts. -/
theorem c2_counterexample :
    searchLoop evC2 (1/10) 100 10 50 [] =
      (.finished (1/20) 40 50
        [(50, ⟨1/5, 50, 2⟩), (60, ⟨1/5, 200, 1⟩)], [50, 60, 50]) ∧
    lookupRec (LoopOut.table (searchLoop evC2 (1/10) 100 10 50 []).1) 50 =
      some ⟨1/5, 50, 2⟩ ∧
    ¬ ((1/5 : ℚ) = 1/20 ∧ (50 : ℕ) = 40) := by
  refine ⟨?_, ?_, ?_⟩ <;> with_unfolding_all decide

/-- Claim C2 amended: a trials entry stores the FIRST observation at its
quality.  Once an entry is present, any amount of further loop execution
preserves its score and size (only `attempts` may grow); and an entry
created by a trial stores exactly the score and size that trial observed,
with `attempts = 1`. -/
theorem c2_amended_first_observation (ev : Ev) (th : ℚ) (isz : ℕ) :
    (∀ (fuel : ℕ) (q0 : ℤ) (t0 : Trials) (q : ℤ) (r : TrialRecord),
      lookupRec t0 q = some r →
      ∃ r1,
        lookupRec (LoopOut.table (searchLoop ev th isz fuel q0 t0).1) q =
          some r1 ∧
        r1.score = r.score ∧ r1.size = r.size ∧ r.attempts ≤ r1.attempts) ∧
    (∀ (q : ℤ) (t : Trials) (s : ℚ) (z : ℕ),
      lookupRec t q = none →
      lookupRec (afterTrial t q s z) q = some ⟨s, z, 1⟩) := by
  constructor
  · intro fuel
    induction fuel with
    | zero =>
      intro q0 t0 q r h
      exact ⟨r, h, rfl, rfl, le_refl _⟩
    | succ n ih =>
      intro q0 t0 q r h
      rcases loopStep_cases ev th isz q0 t0 with
        ⟨_, hs⟩ | ⟨s, z, _, _, hs⟩ | ⟨s, z, _, _, _, hs⟩ |
        ⟨s, z, _, _, _, _, hs⟩ | ⟨s, z, _, _, _, _, hs⟩
      · rw [searchLoop, hs]
        exact ⟨r, h, rfl, rfl, le_refl _⟩
      · rw [searchLoop, hs]
        obtain ⟨r1, h1, hsc, hsz, hat⟩ := afterTrial_preserves q0 s z h
        exact ⟨r1, h1, hsc, hsz, hat⟩
      · rw [searchLoop, hs]
        obtain ⟨r1, h1, hsc, hsz, hat⟩ := afterTrial_preserves q0 s z h
        obtain ⟨r2, h2, hsc2, hsz2, hat2⟩ := ih _ _ q r1 h1
        exact ⟨r2, by simpa using h2, by rw [hsc2, hsc], by rw [hsz2, hsz],
          le_trans hat hat2⟩
      · rw [searchLoop, hs]
        obtain ⟨r1, h1, hsc, hsz, hat⟩ := afterTrial_preserves q0 s z h
        exact ⟨r1, h1, hsc, hsz, hat⟩
      · rw [searchLoop, hs]
        obtain ⟨r1, h1, hsc, hsz, hat⟩ := afterTrial_preserves q0 s z h
        obtain ⟨r2, h2, hsc2, hsz2, hat2⟩ := ih _ _ q r1 h1
        exact ⟨r2, by simpa using h2, by rw [hsc2, hsc], by rw [hsz2, hsz],
          le_trans hat hat2⟩
  · intro q t s z hnone
    rw [lookup_afterTrial_self, hnone]

/-- Claim C2 amended, witness: the preservation half applied to the quality
10 entry of `t10` across one escaping loop iteration. -/
theorem c2_amended_witness :
    ∃ r1,
      lookupRec (LoopOut.table (searchLoop ev5w (1/10) 100 1 10 t10).1) 10 =
        some r1 ∧
      r1.score = (⟨1/2, 200, 3⟩ : TrialRecord).score ∧
      r1.size = (⟨1/2, 200, 3⟩ : TrialRecord).size ∧
      (⟨1/2, 200, 3⟩ : TrialRecord).attempts ≤ r1.attempts :=
  (c2_amended_first_observation ev5w (1/10) 100).1 1 10 t10 10 ⟨1/2, 200, 3⟩ rfl

/-- Claim C3 counterexample: starting at quality 0 (inside [0,100]) with an
evaluator always reporting a size regression, the second loop iteration
probes quality -5 — the size-regression decrease step `quality -= interval`
has no clamp, so the candidate leaves [0,100]. -/
theorem c3_counterexample :
    (searchLoop evC3 (1/10) 100 2 0 []).2 = [0, -5] ∧
    ((searchLoop evC3 (1/10) 100 2 0 []).2).any (fun q => decide (q < 0)) =
      true := by
  refine ⟨?_, ?_⟩ <;> with_unfolding_all decide

/-- Claim C3 amended: the probed quality stays an integer and never exceeds
100 when the attempt starts at most at 100 (the increase step clamps and the
decrease step only lowers quality), but it is not kept at or above 0: the
decrease step does not clamp. -/
theorem c3_amended_probes_le_100 (ev : Ev) (th : ℚ) (isz : ℕ) :
    ∀ (fuel : ℕ) (q0 : ℤ) (t0 : Trials), q0 ≤ 100 →
      ∀ q ∈ (searchLoop ev th isz fuel q0 t0).2, q ≤ 100 := by
  intro fuel
  induction fuel with
  | zero =>
    intro q0 t0 _ q hq
    simp [searchLoop] at hq
  | succ n ih =>
    intro q0 t0 h q hq
    rcases loopStep_cases ev th isz q0 t0 with
      ⟨_, hs⟩ | ⟨s, z, _, _, hs⟩ | ⟨s, z, _, _, _, hs⟩ |
      ⟨s, z, _, _, _, _, hs⟩ | ⟨s, z, _, _, _, _, hs⟩
    · rw [searchLoop, hs] at hq
      simp only [List.mem_singleton] at hq
      subst hq
      exact h
    · rw [searchLoop, hs] at hq
      simp only [List.mem_singleton] at hq
      subst hq
      exact h
    · rw [searchLoop, hs] at hq
      dsimp only at hq
      cases hrec : searchLoop ev th isz n (q0 - getQualityInterval s th q0)
          (afterTrial t0 q0 s z) with
      | mk out lg =>
        rw [hrec] at hq
        simp only [List.mem_cons] at hq
        rcases hq with hq | hq
        · subst hq
          exact h
        · have h1 : (0 : ℤ) ≤ getQualityInterval s th q0 :=
            le_trans zero_le_one (one_le_getQualityInterval s th q0)
          have hb : q0 - getQualityInterval s th q0 ≤ 100 := by omega
          have h2 := ih (q0 - getQualityInterval s th q0)
            (afterTrial t0 q0 s z) hb q
          rw [hrec] at h2
          exact h2 hq
    · rw [searchLoop, hs] at hq
      simp only [List.mem_singleton] at hq
      subst hq
      exact h
    · rw [searchLoop, hs] at hq
      dsimp only at hq
      cases hrec : searchLoop ev th isz n
          (clampQuality (q0 + getQualityInterval s th q0))
          (afterTrial t0 q0 s z) with
      | mk out lg =>
        rw [hrec] at hq
        simp only [List.mem_cons] at hq
        rcases hq with hq | hq
        · subst hq
          exact h
        · have h2 := ih (clampQuality (q0 + getQualityInterval s th q0))
            (afterTrial t0 q0 s z)
            (clampQuality_le_100 _) q
          rw [hrec] at h2
          exact h2 hq

/-- Claim C3 amended, witness: the invariant applied to the concrete run of
`evC3` from quality 0. -/
theorem c3_amended_witness :
    (0 : ℤ) ≤ 100 ∧ ∀ q ∈ (searchLoop evC3 (1/10) 100 2 0 []).2, q ≤ 100 :=
  ⟨by decide, c3_amended_probes_le_100 evC3 (1/10) 100 2 0 [] (by decide)⟩

set_option maxRecDepth 1500 in
/-- Claim C6 counterexample: with `evA` (input size 100, threshold 1/10,
start 60) the driver reports success at quality 50 with size 200, and the
stored record at the returned quality has `score <= threshold` but
`size = 200 >= inputSize = 100` — the search "succeeds" with an output
larger than the input, refuting the claimed postcondition. -/
theorem c6_counterexample :
    (webpRecompress evA 100 none true (11/10) 6 1 (1/10) 60 false []).1 =
      .success 50 200
        [(60, ⟨1/5, 210, 1⟩), (50, ⟨1/100, 200, 1⟩), (41, ⟨1/5, 80, 2⟩),
          (51, ⟨1/5, 150, 1⟩)] ∧
    lookupRec [(60, ⟨1/5, 210, 1⟩), (50, ⟨1/100, 200, 1⟩), (41, ⟨1/5, 80, 2⟩),
        (51, ⟨1/5, 150, 1⟩)] 50 = some ⟨1/100, 200, 1⟩ ∧
    ((1/100 : ℚ) ≤ 1/10) ∧ ¬ ((200 : ℕ) < 100) := by
  refine ⟨?_, ?_, ?_, ?_⟩
  · with_unfolding_all decide
  · with_unfolding_all decide
  · with_unfolding_all decide
  · decide

/-- Claim C6 amended: when the loop finishes with a passing (score, size)
and the final selection picks `(qf, sf)`, the trials entry at `qf` has the
selected size and a recorded score at most the just-computed score, hence at
most the threshold; the further guarantee `size < inputSize` for that entry
holds additionally whenever the trial evaluator is deterministic per quality
(the behaviour of the real encoder), but not for arbitrary evaluators. -/
theorem c6_amended_convergence_record (ev : Ev) (th : ℚ) (isz : ℕ)
    (fuel : ℕ) (q0 : ℤ) (t0 : Trials) (score : ℚ) (size : ℕ) (q1 : ℤ)
    (t1 : Trials) (plog : List ℤ) (qf : ℤ) (sf : ℕ)
    (hloop : searchLoop ev th isz fuel q0 t0 =
      (.finished score size q1 t1, plog))
    (hscore : score ≤ th) (hsize : size < isz)
    (hfq : getFinalQuality score t1 = some (qf, sf)) :
    ∃ r, (qf, r) ∈ t1 ∧ r.size = sf ∧ r.score ≤ score ∧ r.score ≤ th ∧
      (DetEv ev → TableConsistent ev t0 → sf < isz) := by
  obtain ⟨⟨r, hm, hsz, hsc⟩, hmin⟩ := getFinalQuality_spec hfq
  refine ⟨r, hm, hsz, hsc, le_trans hsc hscore, ?_⟩
  intro hdet hcons
  obtain ⟨_, qp, rp, hlk, hs, hz⟩ :=
    searchLoop_finished_consistent hdet fuel q0 t0 hcons hloop
  have h1 : sf ≤ rp.size := hmin qp rp (lookupRec_mem hlk) (le_of_eq hs)
  rw [hz] at h1
  exact lt_of_le_of_lt h1 hsize

set_option maxRecDepth 1500 in
/-- Claim C6 amended, witness: the deterministic evaluator `ev6w` converges
at quality 80 (input size 1000, threshold 1/50); the selected record
satisfies both bounds. -/
theorem c6_amended_witness :
    ∃ r, ((80 : ℤ), r) ∈ ([(80, ⟨1/100, 600, 1⟩)] : Trials) ∧
      r.size = 600 ∧ r.score ≤ 1/100 ∧ r.score ≤ 1/50 ∧
      (DetEv ev6w → TableConsistent ev6w [] → 600 < 1000) :=
  c6_amended_convergence_record ev6w (1/50) 1000 3 80 [] (1/100) 600 80
    [(80, ⟨1/100, 600, 1⟩)] [80] 80 600
    (by with_unfolding_all decide) (by norm_num) (by decide)
    (by with_unfolding_all decide)

/-- Claim C8 amended: a trial failure inside the search loop aborts the
whole attempt — the loop returns the trial failure at once, and the driver
propagates it as a failure result — but the confirming trial at the final
chosen quality is NOT checked: its outcome is discarded, so the final block
behaves identically under any two evaluators. -/
theorem c8_amended_loop_aborts_confirm_ignored :
    (∀ (ev : Ev) (th : ℚ) (isz fuel : ℕ) (q : ℤ) (t : Trials),
      ev q t = none →
      searchLoop ev th isz (fuel + 1) q t = (.trialFail q t, [q])) ∧
    (∀ (ev : Ev) (isz : ℕ) (idQ : Option ℤ) (mult : ℚ) (lf d : ℕ) (th : ℚ)
        (st : ℤ) (prior : Bool) (tr : Trials) (qx : ℤ) (tx : Trials)
        (plog : List ℤ),
      ¬ (1 < th ∨ th < 0) →
      searchLoop ev th isz lf (initialQuality prior idQ (condClampStart st))
          tr = (.trialFail qx tx, plog) →
      (webpRecompress ev isz idQ true mult lf (d + 1) th st prior tr).1 =
        .failure "Couldn\x27t run image trial.") ∧
    (∀ (ev1 ev2 : Ev) (score : ℚ) (t : Trials),
      (finalBlock ev1 score t).1 = (finalBlock ev2 score t).1) := by
  refine ⟨?_, ?_, ?_⟩
  · intro ev th isz fuel q t hev
    simp only [searchLoop, loopStep, hev]
  · intro ev isz idQ mult lf d th st prior tr qx tx plog hth hloop
    simp only [webpRecompress, if_neg hth, hloop]
    rfl
  · intro ev1 ev2 score t
    rw [finalBlock, finalBlock]

set_option maxRecDepth 1500 in
/-- Claim C8 counterexample: under `evA` the driver reports success at
quality 50 even though the confirming trial at that quality — invoked with
the fresh empty trials object — fails (`evA 50 [] = none`): the confirming
trial failure does not abort the search. -/
theorem c8_counterexample :
    (webpRecompress evA 100 none true (11/10) 6 1 (1/10) 60 false []).1 =
      .success 50 200
        [(60, ⟨1/5, 210, 1⟩), (50, ⟨1/100, 200, 1⟩), (41, ⟨1/5, 80, 2⟩),
          (51, ⟨1/5, 150, 1⟩)] ∧
    evA 50 [] = none := by
  refine ⟨?_, ?_⟩
  · with_unfolding_all decide
  · rfl

/-- Claim C8 amended, witness: an always-failing evaluator makes the loop
return the trial failure and the driver a failure result. -/
theorem c8_amended_witness :
    searchLoop (fun _ _ => none) (1/10) 100 1 50 [] =
      (.trialFail 50 [], [50]) ∧
    (webpRecompress (fun _ _ => none) 100 none true (11/10) 1 1 (1/10) 50
        false []).1 = .failure "Couldn\x27t run image trial." :=
  ⟨c8_amended_loop_aborts_confirm_ignored.1 (fun _ _ => none) (1/10) 100 0 50
      [] rfl,
    c8_amended_loop_aborts_confirm_ignored.2.1 (fun _ _ => none) 100 none
      (11/10) 1 0 (1/10) 50 false [] 50 [] [50] (by norm_num)
      (by with_unfolding_all decide)⟩

set_option maxRecDepth 1500 in
/-- Claim C7 counterexample: with threshold 1/1000 and multiplier 11/10 the
failed attempt is retried at threshold `roundTo(1/1000 * 11/10) = 0`, which
is strictly below the failed threshold 1/1000 — decimal rounding can undo
the relaxation, refuting "the retry threshold is always >= the failed
threshold". -/
theorem c7_counterexample :
    attemptThresholds
        (webpRecompress ev7 100 none true (11/10) 5 2 (1/1000) 100 false
          []).2 = [1/1000, 0] ∧
    ¬ ((1/1000 : ℚ) ≤ 0) := by
  refine ⟨?_, ?_⟩
  · with_unfolding_all decide
  · with_unfolding_all decide

/-- Claim C7 amended: on a non-successful attempt the driver retries with
threshold `roundTo(threshold * thresholdMultiplier)`, start equal to the
last quality reached, `prior = true`, and the same trials table carried
forward; the unrounded product is at least the failed threshold (for
multiplier at least 1 and nonnegative threshold), but the fixed-precision
rounding can put the retry threshold strictly below the failed one. -/
theorem c7_amended_relaxation_recursion (ev : Ev) (isz : ℕ) (idQ : Option ℤ)
    (mult : ℚ) (lf d : ℕ) (th : ℚ) (st : ℤ) (prior : Bool) (tr : Trials)
    (score : ℚ) (size : ℕ) (q1 : ℤ) (t1 : Trials) (plog : List ℤ)
    (hth : ¬ (1 < th ∨ th < 0))
    (hloop : searchLoop ev th isz lf
        (initialQuality prior idQ (condClampStart st)) tr =
      (.finished score size q1 t1, plog))
    (hfail : ¬ (score ≤ th ∧ size < isz)) :
    (webpRecompress ev isz idQ true mult lf (d + 1) th st prior tr).1 =
      (webpRecompress ev isz idQ true mult lf d
        (roundTo (th * mult)) q1 true t1).1 ∧
    (0 ≤ th → 1 ≤ mult → th ≤ th * mult) := by
  constructor
  · simp only [webpRecompress, if_neg hth, hloop, if_neg hfail]
    cases hrec : webpRecompress ev isz idQ true mult lf d
        (roundTo (th * mult)) q1 true t1 with
    | mk r rlog =>
      rfl
  · intro h0 h1
    exact le_mul_of_one_le_right h0 h1

set_option maxRecDepth 1500 in
/-- Claim C7 amended, witness: the escaping `ev7` attempt at threshold
1/1000 recurses with the rounded relaxed threshold, start 102 and the
carried trials table. -/
theorem c7_amended_witness :
    (webpRecompress ev7 100 none true (11/10) 5 2 (1/1000) 100 false
        []).1 =
      (webpRecompress ev7 100 none true (11/10) 5 1
        (roundTo ((1/1000) * (11/10))) 102 true
        [(100, ⟨1/100, 50, 4⟩)]).1 ∧
    (0 ≤ (1/1000 : ℚ) → 1 ≤ (11/10 : ℚ) →
      (1/1000 : ℚ) ≤ (1/1000) * (11/10)) :=
  c7_amended_relaxation_recursion ev7 100 none (11/10) 5 1 (1/1000) 100
    false [] (1/100) 50 102 [(100, ⟨1/100, 50, 4⟩)] [100, 100, 100, 100]
    (by norm_num) (by with_unfolding_all decide) (by norm_num)

/-- Claim C9: on the success path the driver returns exactly the loop-exit
trials table: the confirming trial — run at the selected quality with a
fresh empty trials object and its result discarded — changes no entry, and
the event log records that confirming trial after the probes. -/
theorem c9_confirm_trial_frame (ev : Ev) (isz : ℕ) (idQ : Option ℤ)
    (mult : ℚ) (lf d : ℕ) (th : ℚ) (st : ℤ) (prior : Bool) (tr : Trials)
    (score : ℚ) (size : ℕ) (q1 : ℤ) (t1 : Trials) (plog : List ℤ)
    (qf : ℤ) (sf : ℕ)
    (hth : ¬ (1 < th ∨ th < 0))
    (hloop : searchLoop ev th isz lf
        (initialQuality prior idQ (condClampStart st)) tr =
      (.finished score size q1 t1, plog))
    (hpass : score ≤ th ∧ size < isz)
    (hfq : getFinalQuality score t1 = some (qf, sf)) :
    ∃ l, webpRecompress ev isz idQ true mult lf (d + 1) th st prior tr =
      (.success qf sf t1, l ++ [.confirm qf]) := by
  refine ⟨(Event.statIn :: (if prior then [] else [Event.identifyEv])) ++
    [Event.convertEv, Event.attempt th] ++ plog.map Event.probe, ?_⟩
  simp only [webpRecompress, if_neg hth, hloop, if_pos hpass, finalBlock,
    hfq]
  simp [List.append_assoc]

set_option maxRecDepth 1500 in
/-- Claim C9, witness: the `ev6w` run converging at quality 80 returns the
loop-exit table unchanged, with the confirming trial logged last. -/
theorem c9_witness :
    ∃ l, webpRecompress ev6w 1000 none true (11/10) 3 1 (1/50) 80 false [] =
      (.success 80 600 [(80, ⟨1/100, 600, 1⟩)], l ++ [.confirm 80]) :=
  c9_confirm_trial_frame ev6w 1000 none (11/10) 3 0 (1/50) 80 false []
    (1/100) 600 80 [(80, ⟨1/100, 600, 1⟩)] [80] 80 600
    (by norm_num) (by with_unfolding_all decide) (by norm_num)
    (by with_unfolding_all decide)

end WebpEquiv